import Mathlib

/-!
# Magnum: verification of `Math::swizzle` (src/Math/Swizzle.h)

The C++ templates are resolved by the compiler; the embedding makes that
resolution an explicit computation.  A call `swizzle<components...>(vector)`
becomes `swizzle components vector`, which either yields the resulting
`Vector<sizeof...(components), T>` or the reason why the call does not compile.

The file also covers the mesh transformations of src/Magnum/MeshTools/Transform.h, whose
in-place loops are functions from the contents of a container before the loop to its
contents after it, and the draw attachments of src/DefaultFramebuffer.h.
-/

namespace Magnum
namespace Math

/-- Modelled from the spec: the class `Math::Vector<size, T>` is declared in Vector.h, which
is not among the sources. The spec describes it as an ordered, fixed-length sequence of
`size` elements of type `T`, built from an explicit element list and read by index. The
spec also wants `size` positive. Whether `Vector<0, T>` is a well-formed type is decided
by Vector.h, so the type carries no such invariant: it is as Swizzle.h uses it, and what
the compiler does with an empty selector pack is left open. -/
structure Vector (size : Nat) (T : Type) where
  data : List T
  size_eq : data.length = size
deriving DecidableEq

/-- Indexed read access `vector[position]`. -/
def Vector.get {size : Nat} {T : Type} (vector : Vector size T) (position : Nat)
    (h : position < size) : T :=
  vector.data.get ⟨position, by rw [vector.size_eq]; exact h⟩

/-- Reasons for which an instantiation of `swizzle` is rejected by the compiler. -/
inductive CompileError where
  /-- The assertion `static_assert(size > position, "Swizzle parameter out of range of base vector")`
  of `ComponentAtPosition<size, position>` fails. -/
  | outOfRange (size position : Nat)
  /-- The primary template `Component<size, component>` is an empty struct, so
  `Component<size, component>::value` names no member. -/
  | noValue (size : Nat) (component : Char)
deriving DecidableEq

deriving instance DecidableEq for Except

namespace Implementation

/-- Embedding of `ComponentAtPosition<size, position>::value(vector)`: the static assertion
`size > position` guards the read `vector[position]`. -/
def ComponentAtPosition.value {T : Type} (size position : Nat) (vector : Vector size T) :
    Except CompileError T :=
  if h : size > position then
    Except.ok (vector.get position h)
  else
    Except.error (CompileError.outOfRange size position)

/-- Embedding of `Component<size, component>::value(vector)`: the specialisations for
x, y, z and w inherit `ComponentAtPosition<size, 0..3>`, the ones for 0 and 1 return `T(0)`
and `T(1)`, any other character selects the empty primary template. -/
def Component.value {T : Type} [Zero T] [One T] (size : Nat) (component : Char)
    (vector : Vector size T) : Except CompileError T :=
  if component = 'x' then ComponentAtPosition.value size 0 vector
  else if component = 'y' then ComponentAtPosition.value size 1 vector
  else if component = 'z' then ComponentAtPosition.value size 2 vector
  else if component = 'w' then ComponentAtPosition.value size 3 vector
  else if component = '0' then Except.ok (0 : T)
  else if component = '1' then Except.ok (1 : T)
  else Except.error (CompileError.noValue size component)

end Implementation

/-- Embedding of `swizzle<components...>(vector)`: the braced list
`{Implementation::Component<size, components>::value(vector)...}` initialises a
`Vector<sizeof...(components), T>`, one element per character of the pack, in pack order.
The call compiles only if every element of the expansion does. -/
def swizzle {size : Nat} {T : Type} [Zero T] [One T] :
    (components : List Char) → Vector size T →
      Except CompileError (Vector components.length T)
  | [], _ => Except.ok ⟨[], rfl⟩
  | c :: cs, vector =>
    match Implementation.Component.value size c vector with
    | Except.error e => Except.error e
    | Except.ok a =>
      match swizzle cs vector with
      | Except.error e => Except.error e
      | Except.ok rest => Except.ok ⟨a :: rest.data, by simp [rest.size_eq]⟩

/-- Specification side, the `pos` of the spec: the position named by a positional selector.
The selectors x, y, z, w stand for 0, 1, 2, 3; the constant selectors and all other
characters name no position. -/
def position (component : Char) : Option Nat :=
  if component = 'x' then some 0
  else if component = 'y' then some 1
  else if component = 'z' then some 2
  else if component = 'w' then some 3
  else none

/-- Specification side: the closed selector alphabet of the spec. -/
def alphabet : List Char := ['x', 'y', 'z', 'w', '0', '1']

/-- Specification side: a selector sequence is in range for a base vector of `size` components when every
positional selector in it names a position below `size`. -/
def InRange (size : Nat) (components : List Char) : Prop :=
  ∀ c ∈ components, ∀ p ∈ position c, p < size

instance (size : Nat) (components : List Char) : Decidable (InRange size components) := by
  unfold InRange; infer_instance

/-- The vector of the documentation example, `Vector4<std::int32_t> original(-1, 2, 3, 4)`.
The 32-bit integers are represented by the integers they denote: `swizzle` performs no
arithmetic on them, and `T(0)`, `T(1)` are the integers 0 and 1. -/
def original : Vector 4 Int := ⟨[-1, 2, 3, 4], rfl⟩

/-- The element type `UnsignedByte` (`std::uint8_t`) of the byte colours: the integers
modulo 2^8, so that `T(n)` is `n % 256`. -/
abbrev UnsignedByte : Type := Fin 256

/-- Specification side: a selector sequence is valid for a base vector of `size` components
when it is over the alphabet and in range. -/
def Valid (size : Nat) (components : List Char) : Prop :=
  (∀ c ∈ components, c ∈ alphabet) ∧ InRange size components

instance (size : Nat) (components : List Char) : Decidable (Valid size components) := by
  unfold Valid; infer_instance

/-- Specification side: the selector that a selector `c` of a second swizzle stands for when
the second swizzle is applied to the result of a first swizzle with the selectors `first`:
a positional `c` is replaced by the selector of `first` at the position `c` names, the
constant selectors stay. -/
def composeSelector (first : List Char) (c : Char) : Char :=
  match position c with
  | some p => first.getD p c
  | none => c

/-- Specification side: the selector sequence S3 of the composition of two swizzles,
`S3[i] = first[pos(second[i])]` for a positional `second[i]` and `S3[i] = second[i]` for a
constant one. -/
def composeSelectors (first second : List Char) : List Char :=
  second.map (composeSelector first)

/-- Modelled from the spec: the class `Math::Quaternion<T>` is declared in
Magnum/Math/Quaternion.h, which is not among the sources and which the spec does not
describe. A quaternion is represented by the one member function Transform.h calls on it,
taken as a parameter; `V` is the vector type it transforms. -/
structure Quaternion (V : Type) where
  transformVectorNormalized : V → V

/-- Modelled from the spec: the class `Math::Complex<T>` (Magnum/Math/Complex.h, not among
the sources), represented by the member function Transform.h calls on it. -/
structure Complex (V : Type) where
  transformVector : V → V

/-- Modelled from the spec: the class `Math::Matrix3<T>` (Magnum/Math/Matrix3.h, not among
the sources), represented by the two member functions Transform.h calls on it. -/
structure Matrix3 (V : Type) where
  transformVector : V → V
  transformPoint : V → V

/-- Modelled from the spec: the class `Math::Matrix4<T>` (Magnum/Math/Matrix4.h, not among
the sources), represented by the two member functions Transform.h calls on it. -/
structure Matrix4 (V : Type) where
  transformVector : V → V
  transformPoint : V → V

/-- Modelled from the spec: the class `Math::DualQuaternion<T>`
(Magnum/Math/DualQuaternion.h, not among the sources), represented by the member function
Transform.h calls on it. -/
structure DualQuaternion (V : Type) where
  transformPointNormalized : V → V

/-- Modelled from the spec: the class `Math::DualComplex<T>` (Magnum/Math/DualComplex.h,
not among the sources), represented by the member function Transform.h calls on it. -/
structure DualComplex (V : Type) where
  transformPoint : V → V

/-- Specification side: the matrix `m` is a pure translation by `t` when its vector
transform leaves every vector as it is and its point transform adds `t` to every point. -/
def Matrix3.IsTranslation {V : Type} [Add V] (m : Matrix3 V) (t : V) : Prop :=
  (∀ v, m.transformVector v = v) ∧ ∀ p, m.transformPoint p = p + t

/-- Specification side: the matrix `m` is a pure translation by `t` when its vector
transform leaves every vector as it is and its point transform adds `t` to every point. -/
def Matrix4.IsTranslation {V : Type} [Add V] (m : Matrix4 V) (t : V) : Prop :=
  (∀ v, m.transformVector v = v) ∧ ∀ p, m.transformPoint p = p + t

/-- Modelled from the spec: a concrete `Math::Matrix3<T>` over the integers; Matrix3.h is not
among the sources. The matrix is the 2D affine transformation in homogeneous coordinates
with linear part of columns `(a, b)`, `(c, d)` and translation column `(tx, ty)`. Following
the documentation of Transform.h, `transformVector` does not involve the translation (it
multiplies `(v, 0)`) and `transformPoint` does (it multiplies `(p, 1)`). -/
def Matrix3.affine (a b c d tx ty : Int) : Matrix3 (Int × Int) where
  transformVector := fun v => (a * v.1 + c * v.2 + tx * 0, b * v.1 + d * v.2 + ty * 0)
  transformPoint := fun p => (a * p.1 + c * p.2 + tx * 1, b * p.1 + d * p.2 + ty * 1)

/-- Modelled from the spec: the pure translation `Matrix3::translation(t)`, the identity
linear part with translation column `t`. -/
def Matrix3.translation (t : Int × Int) : Matrix3 (Int × Int) :=
  Matrix3.affine 1 0 0 1 t.1 t.2

/-- Modelled from the spec: the pure translation `Matrix4::translation(t)` over the
integers, in homogeneous coordinates: the identity linear part with translation column `t`;
`transformVector` multiplies `(v, 0)` and `transformPoint` multiplies `(p, 1)`. -/
def Matrix4.translation (t : Int × Int × Int) : Matrix4 (Int × Int × Int) where
  transformVector := fun v =>
    (1 * v.1 + 0 * v.2.1 + 0 * v.2.2 + t.1 * 0,
      0 * v.1 + 1 * v.2.1 + 0 * v.2.2 + t.2.1 * 0,
      0 * v.1 + 0 * v.2.1 + 1 * v.2.2 + t.2.2 * 0)
  transformPoint := fun p =>
    (1 * p.1 + 0 * p.2.1 + 0 * p.2.2 + t.1 * 1,
      0 * p.1 + 1 * p.2.1 + 0 * p.2.2 + t.2.1 * 1,
      0 * p.1 + 0 * p.2.1 + 1 * p.2.2 + t.2.2 * 1)

end Math

/-- The type `GLenum` of OpenGL enumerants, an unsigned integer. -/
abbrev GLenum : Type := Nat

/-- The OpenGL enumerants that DefaultFramebuffer.h names. Their values are fixed by the
OpenGL headers, which are not part of the sources, so they are parameters. -/
structure GLConstants where
  GL_NONE : GLenum
  GL_BACK_LEFT : GLenum
  GL_BACK_RIGHT : GLenum
  GL_FRONT_LEFT : GLenum
  GL_FRONT_RIGHT : GLenum
  GL_BACK : GLenum
  GL_FRONT : GLenum

/-- The preprocessor symbols that DefaultFramebuffer.h tests: whether each is defined. -/
structure Target where
  MAGNUM_TARGET_GLES : Bool
  MAGNUM_TARGET_GLES2 : Bool

namespace DefaultFramebuffer

/-- Embedding of `enum class DrawAttachment: GLenum`: a value of the enumeration is its
underlying `GLenum`. -/
structure DrawAttachment where
  value : GLenum
deriving DecidableEq

/-- The enumerator `DrawAttachment::None`; the whole enumeration is declared only when
`MAGNUM_TARGET_GLES2` is not defined. -/
def DrawAttachment.None (gl : GLConstants) (target : Target) : Option DrawAttachment :=
  if target.MAGNUM_TARGET_GLES2 then none else some ⟨gl.GL_NONE⟩

/-- The enumerator `DrawAttachment::BackLeft`, declared only when `MAGNUM_TARGET_GLES` is
not defined. -/
def DrawAttachment.BackLeft (gl : GLConstants) (target : Target) : Option DrawAttachment :=
  if target.MAGNUM_TARGET_GLES2 then none
  else if target.MAGNUM_TARGET_GLES then none
  else some ⟨gl.GL_BACK_LEFT⟩

/-- The enumerator `DrawAttachment::BackRight`, declared only when `MAGNUM_TARGET_GLES` is
not defined. -/
def DrawAttachment.BackRight (gl : GLConstants) (target : Target) : Option DrawAttachment :=
  if target.MAGNUM_TARGET_GLES2 then none
  else if target.MAGNUM_TARGET_GLES then none
  else some ⟨gl.GL_BACK_RIGHT⟩

/-- The enumerator `DrawAttachment::FrontLeft`, declared only when `MAGNUM_TARGET_GLES` is
not defined. -/
def DrawAttachment.FrontLeft (gl : GLConstants) (target : Target) : Option DrawAttachment :=
  if target.MAGNUM_TARGET_GLES2 then none
  else if target.MAGNUM_TARGET_GLES then none
  else some ⟨gl.GL_FRONT_LEFT⟩

/-- The enumerator `DrawAttachment::FrontRight`, declared only when `MAGNUM_TARGET_GLES` is
not defined. -/
def DrawAttachment.FrontRight (gl : GLConstants) (target : Target) : Option DrawAttachment :=
  if target.MAGNUM_TARGET_GLES2 then none
  else if target.MAGNUM_TARGET_GLES then none
  else some ⟨gl.GL_FRONT_RIGHT⟩

/-- The enumerator `DrawAttachment::Back`: `GL_BACK` when `MAGNUM_TARGET_GLES` is defined,
`GL_BACK_LEFT` otherwise. -/
def DrawAttachment.Back (gl : GLConstants) (target : Target) : Option DrawAttachment :=
  if target.MAGNUM_TARGET_GLES2 then none
  else if target.MAGNUM_TARGET_GLES then some ⟨gl.GL_BACK⟩
  else some ⟨gl.GL_BACK_LEFT⟩

/-- The enumerator `DrawAttachment::Front`: `GL_FRONT` when `MAGNUM_TARGET_GLES` is defined,
`GL_FRONT_LEFT` otherwise. -/
def DrawAttachment.Front (gl : GLConstants) (target : Target) : Option DrawAttachment :=
  if target.MAGNUM_TARGET_GLES2 then none
  else if target.MAGNUM_TARGET_GLES then some ⟨gl.GL_FRONT⟩
  else some ⟨gl.GL_FRONT_LEFT⟩

/-- Embedding of `mapForDraw(DrawAttachment attachment)`: the driver call behind the member
pointer `drawBufferImplementation`, a parameter acting on the OpenGL state `σ`, receives
`static_cast<GLenum>(attachment)`. -/
def mapForDraw {σ : Type} (drawBufferImplementation : GLenum → σ → σ)
    (attachment : DrawAttachment) (state : σ) : σ :=
  drawBufferImplementation attachment.value state

/-- The values of the OpenGL enumerants in the OpenGL headers (gl.h). -/
def glHeader : GLConstants where
  GL_NONE := 0
  GL_BACK_LEFT := 0x0402
  GL_BACK_RIGHT := 0x0403
  GL_FRONT_LEFT := 0x0400
  GL_FRONT_RIGHT := 0x0401
  GL_BACK := 0x0405
  GL_FRONT := 0x0404

end DefaultFramebuffer

namespace MeshTools

/-- Iterations of the range-based loop `for(auto& x: xs) x = f(x);` that are still to run:
`i` is the position of the iterator, `remaining` the number of elements from the iterator
to the end. Each iteration reads the element under the iterator and assigns `f` of it to
that same element of the container. -/
def assignEach.loop {V : Type} (f : V → V) : (remaining : Nat) → (i : Nat) → List V → List V
  | 0, _, xs => xs
  | remaining + 1, i, xs =>
    match xs[i]? with
    | some x => assignEach.loop f remaining (i + 1) (xs.set i (f x))
    | none => xs

/-- Embedding of the statement `for(auto& x: xs) x = f(x);` on the container `xs`, as a
function from the contents of the container before the loop to its contents after it. -/
def assignEach {V : Type} (f : V → V) (xs : List V) : List V :=
  assignEach.loop f xs.length 0 xs

/-- The transformation types for which an overload of `transformVectorsInPlace` exists. -/
inductive VectorTransformation (V : Type) where
  | quaternion (normalizedQuaternion : Math.Quaternion V)
  | complex (complex : Math.Complex V)
  | matrix3 (matrix : Math.Matrix3 V)
  | matrix4 (matrix : Math.Matrix4 V)

/-- The transformation types for which an overload of `transformPointsInPlace` exists. -/
inductive PointTransformation (V : Type) where
  | dualQuaternion (normalizedDualQuaternion : Math.DualQuaternion V)
  | dualComplex (dualComplex : Math.DualComplex V)
  | matrix3 (matrix : Math.Matrix3 V)
  | matrix4 (matrix : Math.Matrix4 V)

/-- Embedding of the four overloads of `transformVectorsInPlace(transformation, vectors)`:
the contents of the container `vectors` after the call, from its contents before. -/
def transformVectorsInPlace {V : Type} (transformation : VectorTransformation V)
    (vectors : List V) : List V :=
  match transformation with
  | VectorTransformation.quaternion normalizedQuaternion =>
    assignEach (fun vector => normalizedQuaternion.transformVectorNormalized vector) vectors
  | VectorTransformation.complex complex =>
    assignEach (fun vector => complex.transformVector vector) vectors
  | VectorTransformation.matrix3 matrix =>
    assignEach (fun vector => matrix.transformVector vector) vectors
  | VectorTransformation.matrix4 matrix =>
    assignEach (fun vector => matrix.transformVector vector) vectors

/-- Embedding of `transformVectors(transformation, vectors)`: the parameter `vectors` is
passed by value, `result` is move-constructed from it, transformed in place and returned. -/
def transformVectors {V : Type} (transformation : VectorTransformation V)
    (vectors : List V) : List V :=
  let result := vectors
  transformVectorsInPlace transformation result

/-- Embedding of the four overloads of `transformPointsInPlace(transformation, points)`:
the contents of the container `points` after the call, from its contents before. -/
def transformPointsInPlace {V : Type} (transformation : PointTransformation V)
    (points : List V) : List V :=
  match transformation with
  | PointTransformation.dualQuaternion normalizedDualQuaternion =>
    assignEach (fun point => normalizedDualQuaternion.transformPointNormalized point) points
  | PointTransformation.dualComplex dualComplex =>
    assignEach (fun point => dualComplex.transformPoint point) points
  | PointTransformation.matrix3 matrix =>
    assignEach (fun point => matrix.transformPoint point) points
  | PointTransformation.matrix4 matrix =>
    assignEach (fun point => matrix.transformPoint point) points

/-- Embedding of `transformPoints(transformation, vectors)`: the parameter is passed by
value, `result` is move-constructed from it, transformed in place and returned. -/
def transformPoints {V : Type} (transformation : PointTransformation V)
    (vectors : List V) : List V :=
  let result := vectors
  transformPointsInPlace transformation result

/-- The arrays that non-owning views refer to, by address: the part of the memory of the
caller that a callee can reach through a view. -/
abbrev Storage (V : Type) : Type := Nat → List V

/-- The sequence types `U` the templates are instantiated with; the documentation accepts
any forward-iterable type. Such a type either owns its elements, as `std::vector` does, or
is a non-owning view, a pointer and a size, of an array that is stored elsewhere. -/
inductive Sequence (V : Type) where
  | owning (elements : List V)
  | view (address : Nat)
deriving DecidableEq

/-- The elements that iterating over a sequence visits, in the given state of the arrays. -/
def Sequence.elements {V : Type} (storage : Storage V) : Sequence V → List V
  | Sequence.owning elements => elements
  | Sequence.view address => storage address

/-- Copy construction and move construction of `U`. An owning container gets elements of
its own, equal to those of the source; a view gets the pointer of the source, so that both
views refer to the same array. -/
def Sequence.construct {V : Type} : Sequence V → Sequence V
  | Sequence.owning elements => Sequence.owning elements
  | Sequence.view address => Sequence.view address

/-- Effect of a function that modifies in place the sequence behind a reference `U&`, given
as `inPlace` on the elements: the elements of an owning container are replaced in the
container, the elements seen through a view are replaced in the array it refers to. -/
def Sequence.modify {V : Type} (inPlace : List V → List V) (storage : Storage V) :
    Sequence V → Storage V × Sequence V
  | Sequence.owning elements => (storage, Sequence.owning (inPlace elements))
  | Sequence.view address =>
    (fun a => if a = address then inPlace (storage address) else storage a,
      Sequence.view address)

/-- Embedding of a call `transformVectors(transformation, vs)` with the memory made
explicit: the parameter `vectors` is copy-constructed from the sequence `vs` of the caller,
`result` is move-constructed from `vectors`, `transformVectorsInPlace` runs on `result`,
and `result` is returned. The value is the state of the arrays after the call and the
returned sequence. -/
def callTransformVectors {V : Type} (transformation : VectorTransformation V)
    (storage : Storage V) (vs : Sequence V) : Storage V × Sequence V :=
  let vectors := vs.construct
  let result := vectors.construct
  Sequence.modify (transformVectorsInPlace transformation) storage result

/-- Embedding of a call `transformPoints(transformation, ps)` with the memory made
explicit: the parameter `vectors` is copy-constructed from the sequence `ps` of the caller,
`result` is move-constructed from `vectors`, `transformPointsInPlace` runs on `result`,
and `result` is returned. The value is the state of the arrays after the call and the
returned sequence. -/
def callTransformPoints {V : Type} (transformation : PointTransformation V)
    (storage : Storage V) (ps : Sequence V) : Storage V × Sequence V :=
  let vectors := ps.construct
  let result := vectors.construct
  Sequence.modify (transformPointsInPlace transformation) storage result

/-- A caller whose array at every address holds the two vectors (1, 2) and (3, 4). -/
def callerArray : Storage (Int × Int) := fun _ => [(1, 2), (3, 4)]

/-- The uniform scaling by 2, a `Matrix3` without translation part. -/
def scalingByTwo : Math.Matrix3 (Int × Int) := Math.Matrix3.affine 2 0 0 2 0 0

/-- Specification side: the vector transform of a transformation, the member function
named by the documentation of `transformVectorsInPlace` for its type. -/
def vectorTransform {V : Type} : VectorTransformation V → V → V
  | VectorTransformation.quaternion q => q.transformVectorNormalized
  | VectorTransformation.complex c => c.transformVector
  | VectorTransformation.matrix3 m => m.transformVector
  | VectorTransformation.matrix4 m => m.transformVector

/-- Specification side: the point transform of a transformation, `transformPoint`, or
`transformPointNormalized` for a dual quaternion. -/
def pointTransform {V : Type} : PointTransformation V → V → V
  | PointTransformation.dualQuaternion q => q.transformPointNormalized
  | PointTransformation.dualComplex c => c.transformPoint
  | PointTransformation.matrix3 m => m.transformPoint
  | PointTransformation.matrix4 m => m.transformPoint

end MeshTools

end Magnum

namespace Magnum
namespace Math

/-! ## Auxiliary facts about the embedding -/

theorem Vector.eq_of_data_eq {size : Nat} {T : Type} {u v : Vector size T}
    (h : u.data = v.data) : u = v := by
  cases u; cases v; cases h; rfl

theorem Vector.get_eq_iff {size : Nat} {T : Type} (v : Vector size T) (i : Nat)
    (h : i < size) (a : T) : v.get i h = a ↔ v.data[i]? = some a := by
  have hi : i < v.data.length := by rw [v.size_eq]; exact h
  unfold Vector.get
  rw [List.getElem?_eq_getElem hi]
  simp

namespace Implementation

theorem ComponentAtPosition.value_ok_iff {T : Type} {size : Nat} (position : Nat)
    (vector : Vector size T) (a : T) :
    ComponentAtPosition.value size position vector = Except.ok a ↔
      ∃ h : position < size, vector.get position h = a := by
  unfold ComponentAtPosition.value
  by_cases h : size > position
  · simp [h]
  · simp [h]

theorem ComponentAtPosition.value_error_iff {T : Type} {size : Nat} (position : Nat)
    (vector : Vector size T) (e : CompileError) :
    ComponentAtPosition.value size position vector = Except.error e ↔
      size ≤ position ∧ e = CompileError.outOfRange size position := by
  unfold ComponentAtPosition.value
  by_cases h : size > position
  · simp [h]
  · simp [h, eq_comm, Nat.le_of_not_lt h]

/-- A positional selector is resolved by `ComponentAtPosition` at the position it names. -/
theorem Component.value_of_position {T : Type} [Zero T] [One T] {size : Nat} {c : Char}
    {p : Nat} (vector : Vector size T) (h : Math.position c = some p) :
    Component.value size c vector = ComponentAtPosition.value size p vector := by
  unfold Math.position at h
  unfold Component.value
  split_ifs at h ⊢ <;> simp_all

theorem Component.value_zero {T : Type} [Zero T] [One T] {size : Nat}
    (vector : Vector size T) : Component.value size '0' vector = Except.ok 0 := by
  simp [Component.value]

theorem Component.value_one {T : Type} [Zero T] [One T] {size : Nat}
    (vector : Vector size T) : Component.value size '1' vector = Except.ok 1 := by
  simp [Component.value]

end Implementation

open Implementation

theorem mem_alphabet_iff (c : Char) :
    c ∈ alphabet ↔ (∃ p, position c = some p ∧ p < 4) ∨ c = '0' ∨ c = '1' := by
  unfold alphabet position
  constructor
  · intro h
    simp only [List.mem_cons, List.mem_singleton, List.mem_nil_iff, or_false] at h
    rcases h with h | h | h | h | h | h <;> subst h <;> simp
  · rintro (⟨p, hp, -⟩ | h | h)
    · split_ifs at hp <;> simp_all
    · simp [h]
    · simp [h]

theorem swizzle_nil {size : Nat} {T : Type} [Zero T] [One T] (vector : Vector size T) :
    swizzle [] vector = Except.ok ⟨[], rfl⟩ := rfl

theorem swizzle_cons_ok_iff {size : Nat} {T : Type} [Zero T] [One T] (c : Char)
    (cs : List Char) (vector : Vector size T) (out : Vector (c :: cs).length T) :
    swizzle (c :: cs) vector = Except.ok out ↔
      ∃ a rest, Component.value size c vector = Except.ok a ∧
        swizzle cs vector = Except.ok rest ∧ out.data = a :: rest.data := by
  rw [swizzle]
  cases hc : Component.value size c vector with
  | error e => simp
  | ok a =>
    cases hr : swizzle cs vector with
    | error e => simp
    | ok rest =>
      simp only [Except.ok.injEq, exists_and_left, exists_eq_left']
      constructor
      · intro h; subst h; rfl
      · intro h; exact Vector.eq_of_data_eq h.symm

theorem swizzle_cons_error_iff {size : Nat} {T : Type} [Zero T] [One T] (c : Char)
    (cs : List Char) (vector : Vector size T) (e : CompileError) :
    swizzle (c :: cs) vector = Except.error e ↔
      Component.value size c vector = Except.error e ∨
        ((∃ a, Component.value size c vector = Except.ok a) ∧
          swizzle cs vector = Except.error e) := by
  rw [swizzle]
  cases hc : Component.value size c vector with
  | error e2 => simp
  | ok a =>
    cases hr : swizzle cs vector with
    | error e2 => simp
    | ok rest => simp

/-- A swizzle that compiles resolves every selector: element `i` of the result is what
`Component<size, components[i]>::value` returns. -/
theorem swizzle_ok_get {size : Nat} {T : Type} [Zero T] [One T] (vector : Vector size T) :
    ∀ (components : List Char) (out : Vector components.length T),
      swizzle components vector = Except.ok out →
      ∀ (i : Nat) (hi : i < components.length),
        Component.value size (components.get ⟨i, hi⟩) vector = Except.ok (out.get i hi)
  | [], _, _, i, hi => absurd hi (Nat.not_lt_zero i)
  | c :: cs, out, h, i, hi => by
    obtain ⟨a, rest, hc, hr, hd⟩ := (swizzle_cons_ok_iff c cs vector out).mp h
    cases i with
    | zero =>
      have : out.get 0 hi = a := by
        rw [Vector.get_eq_iff, hd]; simp
      rw [this]; exact hc
    | succ j =>
      have hj : j < cs.length := Nat.lt_of_succ_lt_succ hi
      have ih := swizzle_ok_get vector cs rest hr j hj
      have : out.get (j + 1) hi = rest.get j hj := by
        rw [Vector.get_eq_iff, hd, List.getElem?_cons_succ, ← Vector.get_eq_iff rest j hj]
      rw [this]; exact ih

/-- A swizzle compiles as soon as every selector is resolved. -/
theorem swizzle_ok_of_forall {size : Nat} {T : Type} [Zero T] [One T]
    (vector : Vector size T) :
    ∀ (components : List Char),
      (∀ c ∈ components, ∃ a, Component.value size c vector = Except.ok a) →
      ∃ out, swizzle components vector = Except.ok out
  | [], _ => ⟨_, swizzle_nil vector⟩
  | c :: cs, h => by
    obtain ⟨a, ha⟩ := h c (List.mem_cons_self c cs)
    obtain ⟨rest, hr⟩ := swizzle_ok_of_forall vector cs
      (fun d hd => h d (List.mem_cons_of_mem c hd))
    exact ⟨⟨a :: rest.data, by simp [rest.size_eq]⟩,
      (swizzle_cons_ok_iff c cs vector _).mpr ⟨a, rest, ha, hr, rfl⟩⟩

/-- A rejected swizzle reports the error of one of its selectors. -/
theorem swizzle_error_mem {size : Nat} {T : Type} [Zero T] [One T]
    (vector : Vector size T) (e : CompileError) :
    ∀ (components : List Char), swizzle components vector = Except.error e →
      ∃ c ∈ components, Component.value size c vector = Except.error e
  | [], h => by simp [swizzle_nil] at h
  | c :: cs, h => by
    rcases (swizzle_cons_error_iff c cs vector e).mp h with hc | ⟨-, hr⟩
    · exact ⟨c, List.mem_cons_self c cs, hc⟩
    · obtain ⟨d, hd, he⟩ := swizzle_error_mem vector e cs hr
      exact ⟨d, List.mem_cons_of_mem c hd, he⟩

/-- One selector that is not resolved makes the whole swizzle fail. -/
theorem swizzle_error_of_mem {size : Nat} {T : Type} [Zero T] [One T]
    (vector : Vector size T) :
    ∀ (components : List Char),
      (∃ c ∈ components, ∃ e, Component.value size c vector = Except.error e) →
      ∃ e, swizzle components vector = Except.error e
  | [], h => by simp at h
  | c :: cs, h => by
    cases hc : Component.value size c vector with
    | error e => exact ⟨e, (swizzle_cons_error_iff c cs vector e).mpr (Or.inl hc)⟩
    | ok a =>
      obtain ⟨d, hd, e, he⟩ := h
      rcases List.mem_cons.mp hd with rfl | hd
      · rw [hc] at he; cases he
      · obtain ⟨e2, he2⟩ := swizzle_error_of_mem vector cs ⟨d, hd, e, he⟩
        exact ⟨e2, (swizzle_cons_error_iff c cs vector e2).mpr (Or.inr ⟨⟨a, hc⟩, he2⟩)⟩

/-- Over the alphabet, a selector is resolved exactly when it is in range, and the only
error it can raise is the failed static assertion. -/
theorem Component_value_alphabet {size : Nat} {T : Type} [Zero T] [One T]
    (vector : Vector size T) (c : Char) (hc : c ∈ alphabet) :
    ((∀ p, position c = some p → p < size) →
        ∃ a, Component.value size c vector = Except.ok a) ∧
      (∀ e, Component.value size c vector = Except.error e →
        ∃ p, position c = some p ∧ size ≤ p ∧ e = CompileError.outOfRange size p) := by
  rcases (mem_alphabet_iff c).mp hc with ⟨p, hp, -⟩ | rfl | rfl
  · rw [Component.value_of_position vector hp]
    constructor
    · intro h
      exact ⟨_, (ComponentAtPosition.value_ok_iff p vector _).mpr ⟨h p hp, rfl⟩⟩
    · intro e he
      obtain ⟨h1, h2⟩ := (ComponentAtPosition.value_error_iff p vector e).mp he
      exact ⟨p, hp, h1, h2⟩
  · rw [Component.value_zero]
    exact ⟨fun _ => ⟨_, rfl⟩, fun e he => by cases he⟩
  · rw [Component.value_one]
    exact ⟨fun _ => ⟨_, rfl⟩, fun e he => by cases he⟩

end Math
end Magnum

namespace Magnum
namespace Math

open Implementation

/-! ## Contract of `swizzle` -/

/-- C1: for a selector sequence over x, y, z, w, 0, 1 whose positional selectors are all
below the size of the base vector, `swizzle` yields a vector whose element `i` is the base
vector's component at the position named by selector `i` when that selector is x, y, z or w,
is zero of `T` when it is 0 and is one of `T` when it is 1. -/
theorem swizzle_elementwise {size : Nat} {T : Type} [Zero T] [One T]
    (components : List Char) (vector : Vector size T)
    (halpha : ∀ c ∈ components, c ∈ alphabet) (hrange : InRange size components) :
    ∃ out, swizzle components vector = Except.ok out ∧
      ∀ (i : Nat) (hi : i < components.length),
        (∀ (p : Nat) (hp : p < size), position (components.get ⟨i, hi⟩) = some p →
          out.get i hi = vector.get p hp) ∧
        (components.get ⟨i, hi⟩ = '0' → out.get i hi = 0) ∧
        (components.get ⟨i, hi⟩ = '1' → out.get i hi = 1) := by
  obtain ⟨out, hout⟩ := swizzle_ok_of_forall vector components
    (fun c hc => (Component_value_alphabet vector c (halpha c hc)).1 (hrange c hc))
  refine ⟨out, hout, fun i hi => ?_⟩
  have hget := swizzle_ok_get vector components out hout i hi
  refine ⟨fun p hp hpos => ?_, fun h0 => ?_, fun h1 => ?_⟩
  · rw [Component.value_of_position vector hpos] at hget
    obtain ⟨_, h⟩ := (ComponentAtPosition.value_ok_iff p vector _).mp hget
    exact h.symm
  · rw [h0, Component.value_zero] at hget
    exact (Except.ok.inj hget).symm
  · rw [h1, Component.value_one] at hget
    exact (Except.ok.inj hget).symm

/-- Witness of C1 at the documentation example: w, 1, 0, x, y, z on (-1, 2, 3, 4). -/
theorem swizzle_elementwise_witness :
    (∀ c ∈ ['w', '1', '0', 'x', 'y', 'z'], c ∈ alphabet) ∧
    InRange 4 ['w', '1', '0', 'x', 'y', 'z'] ∧
    ∃ out, swizzle ['w', '1', '0', 'x', 'y', 'z'] original = Except.ok out ∧
      ∀ (i : Nat) (hi : i < ['w', '1', '0', 'x', 'y', 'z'].length),
        (∀ (p : Nat) (hp : p < 4),
          position (['w', '1', '0', 'x', 'y', 'z'].get ⟨i, hi⟩) = some p →
          out.get i hi = original.get p hp) ∧
        (['w', '1', '0', 'x', 'y', 'z'].get ⟨i, hi⟩ = '0' → out.get i hi = 0) ∧
        (['w', '1', '0', 'x', 'y', 'z'].get ⟨i, hi⟩ = '1' → out.get i hi = 1) :=
  ⟨by decide, by decide,
    swizzle_elementwise ['w', '1', '0', 'x', 'y', 'z'] original (by decide) (by decide)⟩

/-- C2: when some selector of the sequence is positional and names a position that is not
below the size of the base vector, `swizzle` is rejected for every base vector of that size:
the result is a compile error and never an output vector, whatever the other selectors
are. -/
theorem swizzle_out_of_range_rejected {size : Nat} {T : Type} [Zero T] [One T]
    (components : List Char) (vector : Vector size T)
    (h : ∃ c ∈ components, ∃ p, position c = some p ∧ size ≤ p) :
    (∃ e, swizzle components vector = Except.error e) ∧
      ∀ out, swizzle components vector ≠ Except.ok out := by
  obtain ⟨c, hc, p, hp, hsize⟩ := h
  have herr : ∃ e, swizzle components vector = Except.error e := by
    refine swizzle_error_of_mem vector components
      ⟨c, hc, CompileError.outOfRange size p, ?_⟩
    rw [Component.value_of_position vector hp]
    exact (ComponentAtPosition.value_error_iff p vector _).mpr ⟨hsize, rfl⟩
  refine ⟨herr, fun out hout => ?_⟩
  obtain ⟨e, he⟩ := herr
  rw [he] at hout
  cases hout

/-- Witness of C2: x, w, 0 on the 3-component vector (2, 3, 4); only w is out of range. -/
theorem swizzle_out_of_range_rejected_witness :
    (∃ c ∈ ['x', 'w', '0'], ∃ p, position c = some p ∧ 3 ≤ p) ∧
    (∃ e, swizzle ['x', 'w', '0'] (⟨[2, 3, 4], rfl⟩ : Vector 3 Int) = Except.error e) ∧
      ∀ out, swizzle ['x', 'w', '0'] (⟨[2, 3, 4], rfl⟩ : Vector 3 Int) ≠ Except.ok out :=
  ⟨⟨'w', by decide, 3, by decide, by decide⟩,
    swizzle_out_of_range_rejected ['x', 'w', '0'] (⟨[2, 3, 4], rfl⟩ : Vector 3 Int)
      ⟨'w', by decide, 3, by decide, by decide⟩⟩

/-- C4: for a selector sequence over x, y, z, w, 0, 1, `swizzle` produces its output vector
whenever every positional selector is below the size of the base vector, and when it fails
the error is the failed range assertion of a positional selector of the sequence that is
out of range. -/
theorem swizzle_fails_only_by_range {size : Nat} {T : Type} [Zero T] [One T]
    (components : List Char) (vector : Vector size T) (_hsize : 1 ≤ size)
    (halpha : ∀ c ∈ components, c ∈ alphabet) :
    (InRange size components → ∃ out, swizzle components vector = Except.ok out) ∧
      (∀ e, swizzle components vector = Except.error e →
        ∃ c ∈ components, ∃ p, position c = some p ∧ size ≤ p ∧
          e = CompileError.outOfRange size p) := by
  constructor
  · intro hrange
    exact swizzle_ok_of_forall vector components
      (fun c hc => (Component_value_alphabet vector c (halpha c hc)).1 (hrange c hc))
  · intro e he
    obtain ⟨c, hc, hce⟩ := swizzle_error_mem vector e components he
    exact ⟨c, hc, (Component_value_alphabet vector c (halpha c hc)).2 e hce⟩

/-- Witness of C4: y, 1, x on the 2-component vector (5, 7). -/
theorem swizzle_fails_only_by_range_witness :
    1 ≤ 2 ∧ (∀ c ∈ ['y', '1', 'x'], c ∈ alphabet) ∧
    (InRange 2 ['y', '1', 'x'] →
      ∃ out, swizzle ['y', '1', 'x'] (⟨[5, 7], rfl⟩ : Vector 2 Int) = Except.ok out) ∧
    (∀ e, swizzle ['y', '1', 'x'] (⟨[5, 7], rfl⟩ : Vector 2 Int) = Except.error e →
      ∃ c ∈ ['y', '1', 'x'], ∃ p, position c = some p ∧ 2 ≤ p ∧
        e = CompileError.outOfRange 2 p) :=
  ⟨by decide, by decide,
    swizzle_fails_only_by_range ['y', '1', 'x'] (⟨[5, 7], rfl⟩ : Vector 2 Int)
      (by decide) (by decide)⟩

/-- C5: an accepted `swizzle` returns a vector with exactly as many elements as there are
selectors, whatever the size of the base vector; its elements have the base vector's
element type `T`, which is how the result is typed. -/
theorem swizzle_length {size : Nat} {T : Type} [Zero T] [One T]
    (components : List Char) (vector : Vector size T) (out : Vector components.length T)
    (_h : swizzle components vector = Except.ok out) :
    out.data.length = components.length :=
  out.size_eq

/-- Witness of C5 on a 4-component base vector: six selectors (more than the size), four
selectors (as many as the size) and two selectors (fewer than the size). -/
theorem swizzle_length_witness :
    (swizzle ['w', '1', '0', 'x', 'y', 'z'] original = Except.ok ⟨[4, 1, 0, -1, 2, 3], rfl⟩ ∧
      ([4, 1, 0, -1, 2, 3] : List Int).length = ['w', '1', '0', 'x', 'y', 'z'].length) ∧
    (swizzle ['w', 'z', 'y', 'x'] original = Except.ok ⟨[4, 3, 2, -1], rfl⟩ ∧
      ([4, 3, 2, -1] : List Int).length = ['w', 'z', 'y', 'x'].length) ∧
    (swizzle ['z', 'z'] original = Except.ok ⟨[3, 3], rfl⟩ ∧
      ([3, 3] : List Int).length = ['z', 'z'].length) :=
  ⟨⟨by decide, swizzle_length ['w', '1', '0', 'x', 'y', 'z'] original
      ⟨[4, 1, 0, -1, 2, 3], rfl⟩ (by decide)⟩,
    ⟨by decide, swizzle_length ['w', 'z', 'y', 'x'] original ⟨[4, 3, 2, -1], rfl⟩ (by decide)⟩,
    ⟨by decide, swizzle_length ['z', 'z'] original ⟨[3, 3], rfl⟩ (by decide)⟩⟩

/-- C6: the documentation example. Swizzling the 4-component integer vector (-1, 2, 3, 4)
with w, 1, 0, x, y, z yields the 6-component vector (4, 1, 0, -1, 2, 3). -/
theorem swizzle_documentation_example :
    swizzle ['w', '1', '0', 'x', 'y', 'z'] original
      = Except.ok ⟨[4, 1, 0, -1, 2, 3], rfl⟩ := by
  decide

/-- C7: identity. Swizzling a vector of size 1, 2, 3 or 4 with x, with x, y, with x, y, z
or with x, y, z, w respectively returns a vector equal to the base vector. -/
theorem swizzle_identity {T : Type} [Zero T] [One T] :
    (∀ v : Vector 1 T, swizzle ['x'] v = Except.ok v) ∧
    (∀ v : Vector 2 T, swizzle ['x', 'y'] v = Except.ok v) ∧
    (∀ v : Vector 3 T, swizzle ['x', 'y', 'z'] v = Except.ok v) ∧
    (∀ v : Vector 4 T, swizzle ['x', 'y', 'z', 'w'] v = Except.ok v) := by
  refine ⟨?_, ?_, ?_, ?_⟩ <;> rintro ⟨data, h⟩ <;>
    rcases data with _ | ⟨a, _ | ⟨b, _ | ⟨c, _ | ⟨d, _ | ⟨e, t⟩⟩⟩⟩⟩ <;>
    first | rfl | (exfalso; simp at h)

/-- C8: constant injection. On every non-empty base vector, whatever its size and its
values, swizzling with 0, 1 yields the 2-component vector (zero of T, one of T). -/
theorem swizzle_constants {size : Nat} {T : Type} [Zero T] [One T]
    (vector : Vector size T) (_hsize : 0 < size) :
    swizzle ['0', '1'] vector = Except.ok ⟨[0, 1], rfl⟩ :=
  rfl

/-- Witness of C8 on the 3-component vector (7, 8, 9). -/
theorem swizzle_constants_witness :
    0 < 3 ∧ swizzle ['0', '1'] (⟨[7, 8, 9], rfl⟩ : Vector 3 Int) = Except.ok ⟨[0, 1], rfl⟩ :=
  ⟨by decide, swizzle_constants (⟨[7, 8, 9], rfl⟩ : Vector 3 Int) (by decide)⟩

/-- C9: repetition. In an accepted swizzle two occurrences of the same selector yield the
same element; a positional selector in range may be repeated any number `n` of times and
the result is `n` copies of the component it names; in particular x, x on the 2-component
vector (a, b) yields (a, a). -/
theorem swizzle_repetition {T : Type} [Zero T] [One T] :
    (∀ (size : Nat) (vector : Vector size T) (components : List Char)
        (out : Vector components.length T), swizzle components vector = Except.ok out →
        ∀ (i j : Nat) (hi : i < components.length) (hj : j < components.length),
          components.get ⟨i, hi⟩ = components.get ⟨j, hj⟩ → out.get i hi = out.get j hj) ∧
    (∀ (size : Nat) (vector : Vector size T) (c : Char) (p : Nat) (hp : p < size) (n : Nat),
        position c = some p →
        ∃ out, swizzle (List.replicate n c) vector = Except.ok out ∧
          out.data = List.replicate n (vector.get p hp)) ∧
    (∀ a b : T, swizzle ['x', 'x'] (⟨[a, b], rfl⟩ : Vector 2 T) = Except.ok ⟨[a, a], rfl⟩) := by
  refine ⟨?_, ?_, fun a b => rfl⟩
  · intro size vector components out hout i j hi hj hij
    have h1 := swizzle_ok_get vector components out hout i hi
    have h2 := swizzle_ok_get vector components out hout j hj
    rw [hij, h2] at h1
    exact (Except.ok.inj h1).symm
  · intro size vector c p hp n hpos
    have hc : Component.value size c vector = Except.ok (vector.get p hp) := by
      rw [Component.value_of_position vector hpos]
      exact (ComponentAtPosition.value_ok_iff p vector _).mpr ⟨hp, rfl⟩
    induction n with
    | zero => exact ⟨_, swizzle_nil vector, rfl⟩
    | succ n ih =>
      obtain ⟨rest, hr, hd⟩ := ih
      exact ⟨⟨vector.get p hp :: rest.data, by simp [rest.size_eq]⟩,
        (swizzle_cons_ok_iff c (List.replicate n c) vector _).mpr ⟨_, rest, hc, hr, rfl⟩,
        by simp only [hd, List.replicate_succ]⟩

/-- Witness of C9: y, x, y on (5, 7) has equal elements 0 and 2, and three copies of y on
(5, 7) yield (7, 7, 7). -/
theorem swizzle_repetition_witness :
    (swizzle ['y', 'x', 'y'] (⟨[5, 7], rfl⟩ : Vector 2 Int) = Except.ok ⟨[7, 5, 7], rfl⟩ ∧
      (⟨[7, 5, 7], rfl⟩ : Vector 3 Int).get 0 (by decide)
        = (⟨[7, 5, 7], rfl⟩ : Vector 3 Int).get 2 (by decide)) ∧
    (position 'y' = some 1 ∧
      ∃ out, swizzle (List.replicate 3 'y') (⟨[5, 7], rfl⟩ : Vector 2 Int) = Except.ok out ∧
        out.data = List.replicate 3 ((⟨[5, 7], rfl⟩ : Vector 2 Int).get 1 (by decide))) :=
  ⟨⟨by decide,
      swizzle_repetition.1 2 (⟨[5, 7], rfl⟩ : Vector 2 Int) ['y', 'x', 'y']
        ⟨[7, 5, 7], rfl⟩ (by decide) 0 2 (by decide) (by decide) (by decide)⟩,
    ⟨by decide,
      swizzle_repetition.2.1 2 (⟨[5, 7], rfl⟩ : Vector 2 Int) 'y' 1 (by decide) 3
        (by decide)⟩⟩

/-- C10: for every 3-component vector (a, b, c), swizzling with y, z, x yields
(b, c, a). -/
theorem swizzle_yzx {T : Type} [Zero T] [One T] (a b c : T) :
    swizzle ['y', 'z', 'x'] (⟨[a, b, c], rfl⟩ : Vector 3 T) = Except.ok ⟨[b, c, a], rfl⟩ :=
  rfl

/-- C11: for the unsigned 8-bit element type the selector 1 yields the value 1, which is
not the normalised maximum 255, and the selector 0 yields the value 0; for a signed
integer element type they yield the integers 1 and 0. -/
theorem swizzle_constants_not_normalized :
    (∀ (size : Nat) (vector : Vector size UnsignedByte),
        ∃ one zero : UnsignedByte,
          Component.value size '1' vector = Except.ok one ∧ one.val = 1 ∧ one.val ≠ 255 ∧
          Component.value size '0' vector = Except.ok zero ∧ zero.val = 0 ∧
          swizzle ['1', '0'] vector = Except.ok ⟨[one, zero], rfl⟩) ∧
    (∀ (size : Nat) (vector : Vector size Int),
        Component.value size '1' vector = Except.ok (1 : Int) ∧
        Component.value size '0' vector = Except.ok (0 : Int) ∧
        swizzle ['1', '0'] vector = Except.ok ⟨[(1 : Int), (0 : Int)], rfl⟩) := by
  constructor
  · intro size vector
    exact ⟨1, 0, Component.value_one vector, by decide, by decide,
      Component.value_zero vector, by decide, rfl⟩
  · intro size vector
    exact ⟨Component.value_one vector, Component.value_zero vector, rfl⟩

end Math
end Magnum

namespace Magnum
namespace MeshTools

/-! ## Mesh transformations (src/Magnum/MeshTools/Transform.h) -/

/-- Invariant of the loop: with the iterator at position `i`, the elements before `i` are
final and the elements from `i` on are still to be assigned. -/
theorem assignEach_loop_eq {V : Type} (f : V → V) :
    ∀ (remaining i : Nat) (xs : List V), i + remaining = xs.length →
      assignEach.loop f remaining i xs = xs.take i ++ (xs.drop i).map f
  | 0, i, xs, h => by
    have hi : i = xs.length := by omega
    subst hi
    simp [assignEach.loop]
  | remaining + 1, i, xs, h => by
    have hi : i < xs.length := by omega
    rw [assignEach.loop, List.getElem?_eq_getElem hi]
    simp only
    rw [assignEach_loop_eq f remaining (i + 1) (xs.set i (f xs[i])) (by simp; omega)]
    rw [List.set_eq_take_append_cons_drop, if_pos hi]
    have htake : (List.take i xs).length = i := by simp; omega
    rw [List.take_append_eq_append_take, List.drop_append_eq_append_drop]
    simp only [htake, List.take_of_length_le (by omega : (List.take i xs).length ≤ i + 1),
      List.drop_of_length_le (by omega : (List.take i xs).length ≤ i + 1)]
    rw [List.drop_eq_getElem_cons hi]
    simp only [List.map_cons, List.map_drop, Nat.add_sub_cancel_left, List.take_succ_cons,
      List.take_zero, List.drop_succ_cons, List.drop_zero, List.append_assoc,
      List.singleton_append, List.nil_append]

/-- The loop `for(auto& x: xs) x = f(x);` leaves in the container the image of its former
contents under `f`. -/
theorem assignEach_eq_map {V : Type} (f : V → V) (xs : List V) :
    assignEach f xs = xs.map f := by
  unfold assignEach
  rw [assignEach_loop_eq f xs.length 0 xs (by simp)]
  simp

theorem transformVectorsInPlace_eq_map {V : Type} (transformation : VectorTransformation V)
    (vectors : List V) :
    transformVectorsInPlace transformation vectors
      = vectors.map (vectorTransform transformation) := by
  cases transformation <;>
    simp only [transformVectorsInPlace, vectorTransform, assignEach_eq_map]

theorem transformPointsInPlace_eq_map {V : Type} (transformation : PointTransformation V)
    (points : List V) :
    transformPointsInPlace transformation points
      = points.map (pointTransform transformation) := by
  cases transformation <;>
    simp only [transformPointsInPlace, pointTransform, assignEach_eq_map]

/-- On the elements of an owning container, `transformVectors` returns a sequence of the
same length and order whose element `i` is the vector transform applied to element `i`. -/
theorem transformVectors_eq_map {V : Type} (transformation : VectorTransformation V)
    (vs : List V) :
    transformVectors transformation vs = vs.map (vectorTransform transformation) ∧
    (transformVectors transformation vs).length = vs.length ∧
    (∀ i : Nat, (transformVectors transformation vs)[i]?
        = (vs[i]?).map (vectorTransform transformation)) := by
  have h : transformVectors transformation vs = vs.map (vectorTransform transformation) :=
    transformVectorsInPlace_eq_map transformation vs
  refine ⟨h, ?_, ?_⟩
  · rw [h, List.length_map]
  · intro i
    rw [h, List.getElem?_map]

/-- On the elements of an owning container, `transformPoints` returns a sequence of the
same length and order whose element `i` is the point transform applied to element `i`. -/
theorem transformPoints_eq_map {V : Type} (transformation : PointTransformation V)
    (ps : List V) :
    transformPoints transformation ps = ps.map (pointTransform transformation) ∧
    (transformPoints transformation ps).length = ps.length ∧
    (∀ i : Nat, (transformPoints transformation ps)[i]?
        = (ps[i]?).map (pointTransform transformation)) := by
  have h : transformPoints transformation ps = ps.map (pointTransform transformation) :=
    transformPointsInPlace_eq_map transformation ps
  refine ⟨h, ?_, ?_⟩
  · rw [h, List.length_map]
  · intro i
    rw [h, List.getElem?_map]

/-- A call of `transformVectors` on an owning container leaves every array as it was and
returns a container with the transformed elements, the result of `transformVectors` on the
elements; on a view it returns the same view and writes the transformed elements into the
array the view refers to, leaving the other arrays as they were. -/
theorem callTransformVectors_cases {V : Type} (transformation : VectorTransformation V)
    (storage : Storage V) (elements : List V) (address : Nat) :
    callTransformVectors transformation storage (Sequence.owning elements)
      = (storage, Sequence.owning (transformVectors transformation elements)) ∧
    (callTransformVectors transformation storage (Sequence.view address)).2
      = Sequence.view address ∧
    (callTransformVectors transformation storage (Sequence.view address)).1 address
      = (storage address).map (vectorTransform transformation) ∧
    (∀ a, a ≠ address →
      (callTransformVectors transformation storage (Sequence.view address)).1 a
        = storage a) := by
  refine ⟨rfl, rfl, ?_, ?_⟩
  · simp [callTransformVectors, Sequence.construct, Sequence.modify,
      transformVectorsInPlace_eq_map]
  · intro a ha
    simp [callTransformVectors, Sequence.construct, Sequence.modify, ha]

/-- A call of `transformPoints` on an owning container leaves every array as it was and
returns a container with the transformed elements, the result of `transformPoints` on the
elements; on a view it returns the same view and writes the transformed elements into the
array the view refers to, leaving the other arrays as they were. -/
theorem callTransformPoints_cases {V : Type} (transformation : PointTransformation V)
    (storage : Storage V) (elements : List V) (address : Nat) :
    callTransformPoints transformation storage (Sequence.owning elements)
      = (storage, Sequence.owning (transformPoints transformation elements)) ∧
    (callTransformPoints transformation storage (Sequence.view address)).2
      = Sequence.view address ∧
    (callTransformPoints transformation storage (Sequence.view address)).1 address
      = (storage address).map (pointTransform transformation) ∧
    (∀ a, a ≠ address →
      (callTransformPoints transformation storage (Sequence.view address)).1 a
        = storage a) := by
  refine ⟨rfl, rfl, ?_, ?_⟩
  · simp [callTransformPoints, Sequence.construct, Sequence.modify,
      transformPointsInPlace_eq_map]
  · intro a ha
    simp [callTransformPoints, Sequence.construct, Sequence.modify, ha]

/-- C13 (the code at the failing input): the caller passes to `transformVectors` a view of
its array (1, 2), (3, 4) and the scaling by 2. The call returns the same view, and the
array of the caller, which held (1, 2), (3, 4) before the call, holds (2, 4), (6, 8) after
it: the sequence of the caller is modified. -/
theorem transformVectors_view_modifies_caller :
    (Sequence.view 0).elements callerArray = [(1, 2), (3, 4)] ∧
    (callTransformVectors (VectorTransformation.matrix3 scalingByTwo) callerArray
      (Sequence.view 0)).2 = Sequence.view 0 ∧
    (Sequence.view 0).elements
      (callTransformVectors (VectorTransformation.matrix3 scalingByTwo) callerArray
        (Sequence.view 0)).1 = [(2, 4), (6, 8)] := by
  decide

/-- C14 (the code at the failing input): the caller passes to `transformPoints` a view of
its array (1, 2), (3, 4) and the translation by (1, 2). The call returns the same view, and
the array of the caller, which held (1, 2), (3, 4) before the call, holds (2, 4), (4, 6)
after it: the sequence of the caller is modified. -/
theorem transformPoints_view_modifies_caller :
    (Sequence.view 0).elements callerArray = [(1, 2), (3, 4)] ∧
    (callTransformPoints (PointTransformation.matrix3 (Math.Matrix3.translation (1, 2)))
      callerArray (Sequence.view 0)).2 = Sequence.view 0 ∧
    (Sequence.view 0).elements
      (callTransformPoints (PointTransformation.matrix3 (Math.Matrix3.translation (1, 2)))
        callerArray (Sequence.view 0)).1 = [(2, 4), (4, 6)] := by
  decide

/-- C15: for a Matrix3 or Matrix4 transformation `m`, `transformVectorsInPlace` replaces
every element `v` by `m.transformVector(v)` and `transformPointsInPlace` replaces every
element `p` by `m.transformPoint(p)`; hence for a pure translation by `t` every vector is
left as it was by `transformVectorsInPlace` and every point is moved by `t` by
`transformPointsInPlace`. -/
theorem transformInPlace_translation {V2 V3 : Type} [Add V2] [Add V3]
    (m3 : Math.Matrix3 V2) (m4 : Math.Matrix4 V3) (xs : List V2) (ys : List V3) :
    transformVectorsInPlace (VectorTransformation.matrix3 m3) xs = xs.map m3.transformVector ∧
    transformVectorsInPlace (VectorTransformation.matrix4 m4) ys = ys.map m4.transformVector ∧
    transformPointsInPlace (PointTransformation.matrix3 m3) xs = xs.map m3.transformPoint ∧
    transformPointsInPlace (PointTransformation.matrix4 m4) ys = ys.map m4.transformPoint ∧
    (∀ t : V2, m3.IsTranslation t →
      transformVectorsInPlace (VectorTransformation.matrix3 m3) xs = xs ∧
      transformPointsInPlace (PointTransformation.matrix3 m3) xs = xs.map (fun p => p + t)) ∧
    (∀ t : V3, m4.IsTranslation t →
      transformVectorsInPlace (VectorTransformation.matrix4 m4) ys = ys ∧
      transformPointsInPlace (PointTransformation.matrix4 m4) ys = ys.map (fun p => p + t)) := by
  have hv3 := transformVectorsInPlace_eq_map (VectorTransformation.matrix3 m3) xs
  have hv4 := transformVectorsInPlace_eq_map (VectorTransformation.matrix4 m4) ys
  have hp3 := transformPointsInPlace_eq_map (PointTransformation.matrix3 m3) xs
  have hp4 := transformPointsInPlace_eq_map (PointTransformation.matrix4 m4) ys
  refine ⟨hv3, hv4, hp3, hp4, ?_, ?_⟩
  · rintro t ⟨hvec, hpt⟩
    constructor
    · rw [hv3]
      exact (List.map_congr_left (fun v _ => hvec v)).trans (List.map_id xs)
    · rw [hp3]
      exact List.map_congr_left (fun p _ => hpt p)
  · rintro t ⟨hvec, hpt⟩
    constructor
    · rw [hv4]
      exact (List.map_congr_left (fun v _ => hvec v)).trans (List.map_id ys)
    · rw [hp4]
      exact List.map_congr_left (fun p _ => hpt p)

/-- Witness of C15: the homogeneous translation matrices by (1, 2) and by (1, 2, 3) are pure
translations; the vectors (3, 4), (0, 0) stay, the points (3, 4), (0, 0) move to (4, 6),
(1, 2), and likewise in three dimensions. -/
theorem transformInPlace_translation_witness :
    (Math.Matrix3.translation (1, 2)).IsTranslation (1, 2) ∧
    (Math.Matrix4.translation (1, 2, 3)).IsTranslation (1, 2, 3) ∧
    (transformVectorsInPlace (VectorTransformation.matrix3 (Math.Matrix3.translation (1, 2)))
        [(3, 4), (0, 0)] = [(3, 4), (0, 0)] ∧
      transformPointsInPlace (PointTransformation.matrix3 (Math.Matrix3.translation (1, 2)))
        [(3, 4), (0, 0)] = [(3, 4), (0, 0)].map (fun p => p + (1, 2))) ∧
    (transformVectorsInPlace (VectorTransformation.matrix4 (Math.Matrix4.translation (1, 2, 3)))
        [(3, 4, 5)] = [(3, 4, 5)] ∧
      transformPointsInPlace (PointTransformation.matrix4 (Math.Matrix4.translation (1, 2, 3)))
        [(3, 4, 5)] = [(3, 4, 5)].map (fun p => p + (1, 2, 3))) ∧
    [((3 : Int), (4 : Int)), (0, 0)].map (fun p => p + (1, 2)) = [(4, 6), (1, 2)] ∧
    [((3 : Int), (4 : Int), (5 : Int))].map (fun p => p + (1, 2, 3)) = [(4, 6, 8)] :=
  have h3 : (Math.Matrix3.translation (1, 2)).IsTranslation (1, 2) :=
    ⟨fun v => by simp [Math.Matrix3.translation, Math.Matrix3.affine],
      fun p => by
        simp only [Math.Matrix3.translation, Math.Matrix3.affine]
        ext <;> simp⟩
  have h4 : (Math.Matrix4.translation (1, 2, 3)).IsTranslation (1, 2, 3) :=
    ⟨fun v => by simp [Math.Matrix4.translation],
      fun p => by
        simp only [Math.Matrix4.translation]
        ext <;> simp⟩
  ⟨h3, h4,
    (transformInPlace_translation (Math.Matrix3.translation (1, 2))
      (Math.Matrix4.translation (1, 2, 3)) [(3, 4), (0, 0)] [(3, 4, 5)]).2.2.2.2.1 (1, 2) h3,
    (transformInPlace_translation (Math.Matrix3.translation (1, 2))
      (Math.Matrix4.translation (1, 2, 3)) [(3, 4), (0, 0)] [(3, 4, 5)]).2.2.2.2.2 (1, 2, 3) h4,
    by decide, by decide⟩

/-- C20: after `transformVectorsInPlace(t, vs)` the container has the length and order it had
and each element is the vector transform of `t` applied to the former value of that same
element, so that its contents are what `transformVectors(t, vs)` returns for the former
contents; the same holds for `transformPointsInPlace` and `transformPoints`. -/
theorem transformInPlace_refines {V W : Type} (vt : VectorTransformation V)
    (pt : PointTransformation W) (vs : List V) (ps : List W) :
    ((transformVectorsInPlace vt vs).length = vs.length ∧
      (∀ i : Nat, (transformVectorsInPlace vt vs)[i]? = (vs[i]?).map (vectorTransform vt)) ∧
      transformVectorsInPlace vt vs = transformVectors vt vs) ∧
    ((transformPointsInPlace pt ps).length = ps.length ∧
      (∀ i : Nat, (transformPointsInPlace pt ps)[i]? = (ps[i]?).map (pointTransform pt)) ∧
      transformPointsInPlace pt ps = transformPoints pt ps) := by
  refine ⟨⟨?_, ?_, rfl⟩, ⟨?_, ?_, rfl⟩⟩
  · rw [transformVectorsInPlace_eq_map, List.length_map]
  · intro i
    rw [transformVectorsInPlace_eq_map, List.getElem?_map]
  · rw [transformPointsInPlace_eq_map, List.length_map]
  · intro i
    rw [transformPointsInPlace_eq_map, List.getElem?_map]

end MeshTools

namespace DefaultFramebuffer

/-! ## Draw attachments of the default framebuffer (src/DefaultFramebuffer.h) -/

/-- C16: on desktop OpenGL, with neither `MAGNUM_TARGET_GLES` nor `MAGNUM_TARGET_GLES2`
among the defined symbols, `DrawAttachment::Back` has the underlying value of
`DrawAttachment::BackLeft` and `DrawAttachment::Front` the one of
`DrawAttachment::FrontLeft`, so `mapForDraw` hands the same `GLenum` to the driver for
either name. -/
theorem drawAttachment_desktop_aliases (gl : GLConstants) (target : Target)
    (hgles : target.MAGNUM_TARGET_GLES = false)
    (hgles2 : target.MAGNUM_TARGET_GLES2 = false) :
    ∃ back backLeft front frontLeft : DrawAttachment,
      DrawAttachment.Back gl target = some back ∧
      DrawAttachment.BackLeft gl target = some backLeft ∧
      DrawAttachment.Front gl target = some front ∧
      DrawAttachment.FrontLeft gl target = some frontLeft ∧
      back.value = backLeft.value ∧ front.value = frontLeft.value ∧
      (∀ (σ : Type) (drawBufferImplementation : GLenum → σ → σ) (state : σ),
        mapForDraw drawBufferImplementation back state
          = mapForDraw drawBufferImplementation backLeft state ∧
        mapForDraw drawBufferImplementation front state
          = mapForDraw drawBufferImplementation frontLeft state) ∧
      mapForDraw (fun e _ => e) back 0 = gl.GL_BACK_LEFT ∧
      mapForDraw (fun e _ => e) front 0 = gl.GL_FRONT_LEFT := by
  refine ⟨⟨gl.GL_BACK_LEFT⟩, ⟨gl.GL_BACK_LEFT⟩, ⟨gl.GL_FRONT_LEFT⟩, ⟨gl.GL_FRONT_LEFT⟩,
    ?_, ?_, ?_, ?_, rfl, rfl, fun _ _ _ => ⟨rfl, rfl⟩, rfl, rfl⟩
  · simp [DrawAttachment.Back, hgles, hgles2]
  · simp [DrawAttachment.BackLeft, hgles, hgles2]
  · simp [DrawAttachment.Front, hgles, hgles2]
  · simp [DrawAttachment.FrontLeft, hgles, hgles2]

/-- Witness of C16 with the enumerant values of the OpenGL headers. -/
theorem drawAttachment_desktop_aliases_witness :
    (Target.mk false false).MAGNUM_TARGET_GLES = false ∧
    (Target.mk false false).MAGNUM_TARGET_GLES2 = false ∧
    ∃ back backLeft front frontLeft : DrawAttachment,
      DrawAttachment.Back glHeader (Target.mk false false) = some back ∧
      DrawAttachment.BackLeft glHeader (Target.mk false false) = some backLeft ∧
      DrawAttachment.Front glHeader (Target.mk false false) = some front ∧
      DrawAttachment.FrontLeft glHeader (Target.mk false false) = some frontLeft ∧
      back.value = backLeft.value ∧ front.value = frontLeft.value ∧
      (∀ (σ : Type) (drawBufferImplementation : GLenum → σ → σ) (state : σ),
        mapForDraw drawBufferImplementation back state
          = mapForDraw drawBufferImplementation backLeft state ∧
        mapForDraw drawBufferImplementation front state
          = mapForDraw drawBufferImplementation frontLeft state) ∧
      mapForDraw (fun e _ => e) back 0 = glHeader.GL_BACK_LEFT ∧
      mapForDraw (fun e _ => e) front 0 = glHeader.GL_FRONT_LEFT :=
  ⟨rfl, rfl, drawAttachment_desktop_aliases glHeader (Target.mk false false) rfl rfl⟩

end DefaultFramebuffer

namespace Math

open Implementation

/-- A character outside the alphabet selects the empty primary template. -/
theorem Component_value_outside_alphabet {size : Nat} {T : Type} [Zero T] [One T]
    (vector : Vector size T) (c : Char) (hc : c ∉ alphabet) :
    Component.value size c vector = Except.error (CompileError.noValue size c) := by
  unfold alphabet at hc
  simp only [List.mem_cons, List.mem_singleton, List.mem_nil_iff, or_false, not_or] at hc
  obtain ⟨hx, hy, hz, hw, h0, h1⟩ := hc
  simp [Component.value, hx, hy, hz, hw, h0, h1]

/-- C19: for a character `c` outside the alphabet x, y, z, w, 0, 1 and a base vector of any
size, no component is resolved for `c`, and every selector sequence that contains `c` is
rejected: the result is a compile error and never an output vector. -/
theorem swizzle_outside_alphabet_rejected {size : Nat} {T : Type} [Zero T] [One T]
    (c : Char) (components : List Char) (vector : Vector size T)
    (hc : c ∉ alphabet) (hmem : c ∈ components) :
    Component.value size c vector = Except.error (CompileError.noValue size c) ∧
    (∃ e, swizzle components vector = Except.error e) ∧
    ∀ out, swizzle components vector ≠ Except.ok out := by
  have hval := Component_value_outside_alphabet vector c hc
  have herr : ∃ e, swizzle components vector = Except.error e :=
    swizzle_error_of_mem vector components ⟨c, hmem, _, hval⟩
  refine ⟨hval, herr, fun out hout => ?_⟩
  obtain ⟨e, he⟩ := herr
  rw [he] at hout
  cases hout

/-- Witness of C19: the selector r between x and y on the 4-component documentation
vector. -/
theorem swizzle_outside_alphabet_rejected_witness :
    'r' ∉ alphabet ∧ 'r' ∈ ['x', 'r', 'y'] ∧
    Component.value 4 'r' original = Except.error (CompileError.noValue 4 'r') ∧
    (∃ e, swizzle ['x', 'r', 'y'] original = Except.error e) ∧
    ∀ out, swizzle ['x', 'r', 'y'] original ≠ Except.ok out :=
  ⟨by decide, by decide,
    swizzle_outside_alphabet_rejected 'r' ['x', 'r', 'y'] original (by decide) (by decide)⟩

end Math
end Magnum

namespace Magnum
namespace Math

open Implementation

/-! ## Algebra of swizzles -/

/-- An accepted swizzle relates every selector to the element it resolves to. -/
theorem swizzle_forall₂ {size : Nat} {T : Type} [Zero T] [One T] (vector : Vector size T) :
    ∀ (components : List Char) (out : Vector components.length T),
      swizzle components vector = Except.ok out →
      List.Forall₂ (fun c a => Component.value size c vector = Except.ok a)
        components out.data
  | [], out, _ => by
    have h : out.data = [] := List.length_eq_zero.mp out.size_eq
    rw [h]
    exact List.Forall₂.nil
  | c :: cs, out, h => by
    obtain ⟨a, rest, hc, hr, hd⟩ := (swizzle_cons_ok_iff c cs vector out).mp h
    rw [hd]
    exact List.Forall₂.cons hc (swizzle_forall₂ vector cs rest hr)

/-- Selectors that resolve one by one to the elements of a list make the swizzle yield the
vector of that list. -/
theorem swizzle_of_forall₂ {size : Nat} {T : Type} [Zero T] [One T] (vector : Vector size T) :
    ∀ (components : List Char) (l : List T),
      List.Forall₂ (fun c a => Component.value size c vector = Except.ok a) components l →
      ∃ out, swizzle components vector = Except.ok out ∧ out.data = l
  | [], _, List.Forall₂.nil => ⟨_, swizzle_nil vector, rfl⟩
  | c :: cs, _, List.Forall₂.cons hc hrest => by
    obtain ⟨rest, hr, hd⟩ := swizzle_of_forall₂ vector cs _ hrest
    exact ⟨⟨_ :: rest.data, by simp [rest.size_eq]⟩,
      (swizzle_cons_ok_iff c cs vector _).mpr ⟨_, rest, hc, hr, rfl⟩,
      congrArg (List.cons _) hd⟩

/-- The result of a swizzle is determined by what its selectors resolve to. -/
theorem swizzle_congr {size : Nat} {T : Type} [Zero T] [One T] (v w : Vector size T) :
    ∀ (components : List Char),
      (∀ c ∈ components, Component.value size c v = Component.value size c w) →
      swizzle components v = swizzle components w
  | [], _ => rfl
  | c :: cs, h => by
    rw [swizzle, swizzle, h c (List.mem_cons_self c cs),
      swizzle_congr v w cs (fun d hd => h d (List.mem_cons_of_mem c hd))]

/-- A selector that names no position does not read the base vector. -/
theorem Component_value_of_position_none {size size2 : Nat} {T : Type} [Zero T] [One T]
    (v : Vector size T) (w : Vector size2 T) (c : Char) (h : position c = none) :
    (Component.value size c v = Except.ok 0 ∧ Component.value size2 c w = Except.ok 0) ∨
    (Component.value size c v = Except.ok 1 ∧ Component.value size2 c w = Except.ok 1) ∨
    (Component.value size c v = Except.error (CompileError.noValue size c) ∧
      Component.value size2 c w = Except.error (CompileError.noValue size2 c)) := by
  unfold position at h
  unfold Component.value
  split_ifs at h ⊢ <;> simp_all

/-- What a resolved selector yields: a component of the base vector at one of the positions
0 to 3, zero, or one. -/
theorem Component_value_ok_cases {size : Nat} {T : Type} [Zero T] [One T]
    (v : Vector size T) (c : Char) (a : T) (h : Component.value size c v = Except.ok a) :
    (∃ (p : Nat) (hp : p < size), position c = some p ∧ p < 4 ∧ a = v.get p hp) ∨
    (c = '0' ∧ a = 0) ∨ (c = '1' ∧ a = 1) := by
  cases hpos : position c with
  | some p =>
    left
    have hp4 : p < 4 := by
      unfold position at hpos
      split_ifs at hpos <;> simp_all <;> omega
    rw [Component.value_of_position v hpos] at h
    obtain ⟨hp, hget⟩ := (ComponentAtPosition.value_ok_iff p v a).mp h
    exact ⟨p, hp, rfl, hp4, hget.symm⟩
  | none =>
    right
    unfold position at hpos
    unfold Component.value at h
    split_ifs at hpos h <;> simp_all

/-- A selector resolves alike on two base vectors that agree at the position it names. -/
theorem Component_value_agree {size : Nat} {T : Type} [Zero T] [One T]
    (v w : Vector size T) (c : Char)
    (hagree : ∀ (p : Nat) (hp : p < size), position c = some p → v.get p hp = w.get p hp) :
    Component.value size c v = Component.value size c w := by
  cases hpos : position c with
  | some p =>
    rw [Component.value_of_position v hpos, Component.value_of_position w hpos]
    unfold ComponentAtPosition.value
    by_cases hp : size > p
    · simp only [hp, dite_true]
      rw [hagree p hp hpos]
    · simp only [hp, dite_false]
  | none =>
    rcases Component_value_of_position_none v w c hpos with ⟨a, b⟩ | ⟨a, b⟩ | ⟨a, b⟩ <;>
      rw [a, b]

theorem position_lt_four {c : Char} {p : Nat} (h : position c = some p) : p < 4 := by
  unfold position at h
  split_ifs at h <;> simp_all <;> omega

/-- A valid selector sequence is accepted. -/
theorem swizzle_ok_of_valid {size : Nat} {T : Type} [Zero T] [One T]
    (vector : Vector size T) (components : List Char) (h : Valid size components) :
    ∃ out, swizzle components vector = Except.ok out :=
  swizzle_ok_of_forall vector components
    (fun c hc => (Component_value_alphabet vector c (h.1 c hc)).1 (h.2 c hc))

theorem Valid_append {size : Nat} {first second : List Char}
    (h1 : Valid size first) (h2 : Valid size second) : Valid size (first ++ second) := by
  constructor
  · intro c hc
    rcases List.mem_append.mp hc with h | h
    · exact h1.1 c h
    · exact h2.1 c h
  · intro c hc
    rcases List.mem_append.mp hc with h | h
    · exact h1.2 c h
    · exact h2.2 c h

/-- C21: swizzle distributes over the concatenation of selector sequences. When `first` and
`second` are both valid for the size of the base vector, `first ++ second` is valid and its
swizzle is the concatenation of the swizzle of `first` and the swizzle of `second`. -/
theorem swizzle_append {size : Nat} {T : Type} [Zero T] [One T]
    (first second : List Char) (vector : Vector size T)
    (h1 : Valid size first) (h2 : Valid size second) :
    Valid size (first ++ second) ∧
    ∃ out1 out2 out,
      swizzle first vector = Except.ok out1 ∧
      swizzle second vector = Except.ok out2 ∧
      swizzle (first ++ second) vector = Except.ok out ∧
      out.data = out1.data ++ out2.data := by
  refine ⟨Valid_append h1 h2, ?_⟩
  obtain ⟨out1, ho1⟩ := swizzle_ok_of_valid vector first h1
  obtain ⟨out2, ho2⟩ := swizzle_ok_of_valid vector second h2
  obtain ⟨out, ho, hd⟩ := swizzle_of_forall₂ vector (first ++ second)
    (out1.data ++ out2.data)
    (List.rel_append (swizzle_forall₂ vector first out1 ho1)
      (swizzle_forall₂ vector second out2 ho2))
  exact ⟨out1, out2, out, ho1, ho2, ho, hd⟩

/-- Witness of C21: y, 1 and x, x on the 2-component vector (5, 7). -/
theorem swizzle_append_witness :
    Valid 2 ['y', '1'] ∧ Valid 2 ['x', 'x'] ∧
    Valid 2 (['y', '1'] ++ ['x', 'x']) ∧
    ∃ out1 out2 out,
      swizzle ['y', '1'] (⟨[5, 7], rfl⟩ : Vector 2 Int) = Except.ok out1 ∧
      swizzle ['x', 'x'] (⟨[5, 7], rfl⟩ : Vector 2 Int) = Except.ok out2 ∧
      swizzle (['y', '1'] ++ ['x', 'x']) (⟨[5, 7], rfl⟩ : Vector 2 Int) = Except.ok out ∧
      out.data = out1.data ++ out2.data :=
  ⟨by decide, by decide,
    swizzle_append ['y', '1'] ['x', 'x'] (⟨[5, 7], rfl⟩ : Vector 2 Int)
      (by decide) (by decide)⟩

/-- C23: the output of a swizzle depends only on the components its selectors name. For a
valid selector sequence and two base vectors of the same size that agree at every position
named by a positional selector of the sequence, the two swizzles are accepted and yield the
same vector. -/
theorem swizzle_depends_on_named {size : Nat} {T : Type} [Zero T] [One T]
    (components : List Char) (v w : Vector size T) (hvalid : Valid size components)
    (hagree : ∀ c ∈ components, ∀ (p : Nat) (hp : p < size), position c = some p →
      v.get p hp = w.get p hp) :
    swizzle components v = swizzle components w ∧
    ∃ out, swizzle components v = Except.ok out ∧ swizzle components w = Except.ok out := by
  have heq : swizzle components v = swizzle components w :=
    swizzle_congr v w components (fun c hc => Component_value_agree v w c (hagree c hc))
  obtain ⟨out, hout⟩ := swizzle_ok_of_valid v components hvalid
  exact ⟨heq, out, hout, heq ▸ hout⟩

/-- Witness of C23: z, x, 1 on (1, 2, 3) and on (1, 9, 3), which differ only at the position
of y. -/
theorem swizzle_depends_on_named_witness :
    Valid 3 ['z', 'x', '1'] ∧
    (∀ c ∈ ['z', 'x', '1'], ∀ (p : Nat) (hp : p < 3), position c = some p →
      (⟨[1, 2, 3], rfl⟩ : Vector 3 Int).get p hp = (⟨[1, 9, 3], rfl⟩ : Vector 3 Int).get p hp) ∧
    swizzle ['z', 'x', '1'] (⟨[1, 2, 3], rfl⟩ : Vector 3 Int)
      = swizzle ['z', 'x', '1'] (⟨[1, 9, 3], rfl⟩ : Vector 3 Int) ∧
    ∃ out, swizzle ['z', 'x', '1'] (⟨[1, 2, 3], rfl⟩ : Vector 3 Int) = Except.ok out ∧
      swizzle ['z', 'x', '1'] (⟨[1, 9, 3], rfl⟩ : Vector 3 Int) = Except.ok out :=
  have hagree : ∀ c ∈ ['z', 'x', '1'], ∀ (p : Nat) (hp : p < 3), position c = some p →
      (⟨[1, 2, 3], rfl⟩ : Vector 3 Int).get p hp
        = (⟨[1, 9, 3], rfl⟩ : Vector 3 Int).get p hp := by
    intro c hc p hp hpos
    simp only [List.mem_cons, List.mem_singleton, List.mem_nil_iff, or_false] at hc
    rcases hc with rfl | rfl | rfl
    · cases (Option.some.inj hpos : 2 = p); rfl
    · cases (Option.some.inj hpos : 0 = p); rfl
    · simp [position] at hpos
  ⟨by decide, hagree,
    swizzle_depends_on_named ['z', 'x', '1'] (⟨[1, 2, 3], rfl⟩ : Vector 3 Int)
      (⟨[1, 9, 3], rfl⟩ : Vector 3 Int) (by decide) hagree⟩

/-- What the selector of the composition is: for a positional selector in range of the
first sequence the selector of the first sequence at the named position, for a selector
that names no position the selector itself. -/
theorem composeSelector_eq (first : List Char) (c : Char) :
    (∀ (p : Nat) (hp : p < first.length), position c = some p →
      composeSelector first c = first.get ⟨p, hp⟩) ∧
    (position c = none → composeSelector first c = c) := by
  constructor
  · intro p hp hpos
    unfold composeSelector
    rw [hpos]
    simp [List.getD, List.getElem?_eq_getElem hp]
  · intro hpos
    unfold composeSelector
    rw [hpos]

/-- One selector of the second swizzle, read on the result of the first swizzle, resolves
to what the composed selector resolves to on the base vector. -/
theorem Component_value_compose {size : Nat} {T : Type} [Zero T] [One T]
    (first : List Char) (vector : Vector size T) (out1 : Vector first.length T)
    (h1 : swizzle first vector = Except.ok out1) (c : Char) (hc : c ∈ alphabet)
    (hrange : ∀ p ∈ position c, p < first.length) :
    ∃ a, Component.value first.length c out1 = Except.ok a ∧
      Component.value size (composeSelector first c) vector = Except.ok a := by
  cases hpos : position c with
  | some p =>
    have hp : p < first.length := hrange p hpos
    refine ⟨out1.get p hp, ?_, ?_⟩
    · rw [Component.value_of_position out1 hpos]
      exact (ComponentAtPosition.value_ok_iff p out1 _).mpr ⟨hp, rfl⟩
    · rw [(composeSelector_eq first c).1 p hp hpos]
      exact swizzle_ok_get vector first out1 h1 p hp
  | none =>
    rw [(composeSelector_eq first c).2 hpos]
    rcases (mem_alphabet_iff c).mp hc with ⟨p, hp, -⟩ | rfl | rfl
    · rw [hpos] at hp; cases hp
    · exact ⟨0, Component.value_zero out1, Component.value_zero vector⟩
    · exact ⟨1, Component.value_one out1, Component.value_one vector⟩

theorem forall₂_map_of_mem {α β γ : Type} {R : α → β → Prop} {R2 : γ → β → Prop}
    (g : α → γ) :
    ∀ (l : List α) (u : List β), List.Forall₂ R l u →
      (∀ c ∈ l, ∀ a, R c a → R2 (g c) a) → List.Forall₂ R2 (l.map g) u
  | _, _, List.Forall₂.nil, _ => List.Forall₂.nil
  | c :: l, _, List.Forall₂.cons h hrest, hmem =>
    List.Forall₂.cons (hmem c (List.mem_cons_self c l) _ h)
      (forall₂_map_of_mem g l _ hrest (fun d hd => hmem d (List.mem_cons_of_mem c hd)))

theorem Valid_composeSelectors {size : Nat} {first second : List Char}
    (h1 : Valid size first) (h2 : Valid first.length second) :
    Valid size (composeSelectors first second) := by
  have hmem : ∀ d ∈ composeSelectors first second,
      d ∈ first ∨ (d ∈ alphabet ∧ position d = none) := by
    intro d hd
    obtain ⟨c, hc, rfl⟩ := List.mem_map.mp hd
    cases hpos : position c with
    | some p =>
      have hp : p < first.length := h2.2 c hc p hpos
      left
      rw [(composeSelector_eq first c).1 p hp hpos]
      exact List.get_mem first p hp
    | none =>
      right
      rw [(composeSelector_eq first c).2 hpos]
      exact ⟨h2.1 c hc, hpos⟩
  constructor
  · intro d hd
    rcases hmem d hd with h | ⟨h, -⟩
    · exact h1.1 d h
    · exact h
  · intro d hd p hp
    rcases hmem d hd with h | ⟨-, h⟩
    · exact h1.2 d h p hp
    · rw [h] at hp; cases hp

/-- C22: swizzles compose. For a base vector of size `size`, a sequence `first` valid for
`size` and a sequence `second` valid for the length of `first`, the swizzle by `second` of
the swizzle by `first` equals the swizzle by the sequence S3 whose element `i` is
`first[pos(second[i])]` when `second[i]` is positional and `second[i]` when it is 0 or 1;
S3 is valid for `size`. -/
theorem swizzle_compose {size : Nat} {T : Type} [Zero T] [One T]
    (first second : List Char) (vector : Vector size T)
    (h1 : Valid size first) (h2 : Valid first.length second) :
    Valid size (composeSelectors first second) ∧
    (composeSelectors first second).length = second.length ∧
    (∀ (i : Nat) (hi : i < second.length),
      (∀ (p : Nat) (hp : p < first.length), position (second.get ⟨i, hi⟩) = some p →
        (composeSelectors first second)[i]? = some (first.get ⟨p, hp⟩)) ∧
      (position (second.get ⟨i, hi⟩) = none →
        (composeSelectors first second)[i]? = some (second.get ⟨i, hi⟩))) ∧
    ∃ out1 out2 out3,
      swizzle first vector = Except.ok out1 ∧
      swizzle second out1 = Except.ok out2 ∧
      swizzle (composeSelectors first second) vector = Except.ok out3 ∧
      out2.data = out3.data := by
  refine ⟨Valid_composeSelectors h1 h2, by simp [composeSelectors], ?_, ?_⟩
  · intro i hi
    have hget : (composeSelectors first second)[i]?
        = some (composeSelector first (second.get ⟨i, hi⟩)) := by
      simp [composeSelectors, List.getElem?_map, List.getElem?_eq_getElem hi]
    constructor
    · intro p hp hpos
      rw [hget, (composeSelector_eq first _).1 p hp hpos]
    · intro hpos
      rw [hget, (composeSelector_eq first _).2 hpos]
  · obtain ⟨out1, ho1⟩ := swizzle_ok_of_valid vector first h1
    obtain ⟨out2, ho2⟩ := swizzle_ok_of_valid out1 second h2
    have hF : List.Forall₂ (fun c a => Component.value size c vector = Except.ok a)
        (composeSelectors first second) out2.data :=
      forall₂_map_of_mem (composeSelector first) second out2.data
      (swizzle_forall₂ out1 second out2 ho2)
      (fun c hc a ha => by
        obtain ⟨b, hb1, hb2⟩ :=
          Component_value_compose first vector out1 ho1 c (h2.1 c hc) (h2.2 c hc)
        rw [hb1] at ha
        rw [hb2, ← Except.ok.inj ha])
    obtain ⟨out3, ho3, hd⟩ := swizzle_of_forall₂ vector (composeSelectors first second)
      out2.data hF
    exact ⟨out1, out2, out3, ho1, ho2, ho3, hd.symm⟩

/-- Witness of C22: first w, 1, x on (1, 2, 3, 4), then z, y, 0, x on the 3-component
result; the composed sequence is x, 1, 0, w. -/
theorem swizzle_compose_witness :
    Valid 4 ['w', '1', 'x'] ∧ Valid ['w', '1', 'x'].length ['z', 'y', '0', 'x'] ∧
    composeSelectors ['w', '1', 'x'] ['z', 'y', '0', 'x'] = ['x', '1', '0', 'w'] ∧
    Valid 4 (composeSelectors ['w', '1', 'x'] ['z', 'y', '0', 'x']) ∧
    ∃ out1 out2 out3,
      swizzle ['w', '1', 'x'] (⟨[1, 2, 3, 4], rfl⟩ : Vector 4 Int) = Except.ok out1 ∧
      swizzle ['z', 'y', '0', 'x'] out1 = Except.ok out2 ∧
      swizzle (composeSelectors ['w', '1', 'x'] ['z', 'y', '0', 'x'])
        (⟨[1, 2, 3, 4], rfl⟩ : Vector 4 Int) = Except.ok out3 ∧
      out2.data = out3.data :=
  have h := swizzle_compose ['w', '1', 'x'] ['z', 'y', '0', 'x']
    (⟨[1, 2, 3, 4], rfl⟩ : Vector 4 Int) (by decide) (by decide)
  ⟨by decide, by decide, by decide, h.1, h.2.2.2⟩

/-- C24 (the claim fails at this input): the 5-component vector (1, 2, 3, 4, 1) is
reproduced in full by the selectors x, y, z, w, 1, its component at index 4 being equal to
one. -/
theorem swizzle_reproduces_five_components :
    4 < 5 ∧
    swizzle ['x', 'y', 'z', 'w', '1'] (⟨[1, 2, 3, 4, 1], rfl⟩ : Vector 5 Int)
      = Except.ok ⟨[1, 2, 3, 4, 1], rfl⟩ := by
  decide

/-- C24 (amended): no selector addresses a position beyond 3. For a base vector of size
above 4 and an accepted selector sequence, each output element is zero, one, or one of the
first four components of the base vector; the output is the same for two base vectors that
agree on their first four components; and, zero and one of `T` being different, no selector
sequence reproduces every vector of that size: for each sequence there is a base vector
that the swizzle does not return. -/
theorem swizzle_beyond_w {size : Nat} {T : Type} [Zero T] [One T]
    (hsize : 4 < size) (h01 : (0 : T) ≠ 1) :
    (∀ (components : List Char) (v : Vector size T) (out : Vector components.length T),
      swizzle components v = Except.ok out →
      ∀ (i : Nat) (hi : i < components.length),
        out.get i hi = 0 ∨ out.get i hi = 1 ∨
          ∃ (p : Nat) (hp : p < size), p < 4 ∧ out.get i hi = v.get p hp) ∧
    (∀ (components : List Char) (v w : Vector size T),
      (∀ (p : Nat) (hp : p < size), p < 4 → v.get p hp = w.get p hp) →
      swizzle components v = swizzle components w) ∧
    (∀ components : List Char, ∃ v : Vector size T,
      ∀ out, swizzle components v = Except.ok out → out.data ≠ v.data) := by
  refine ⟨?_, ?_, ?_⟩
  · intro components v out hout i hi
    rcases Component_value_ok_cases v _ _ (swizzle_ok_get v components out hout i hi) with
      ⟨p, hp, -, hp4, h⟩ | ⟨-, h⟩ | ⟨-, h⟩
    · exact Or.inr (Or.inr ⟨p, hp, hp4, h⟩)
    · exact Or.inl h
    · exact Or.inr (Or.inl h)
  · intro components v w hagree
    exact swizzle_congr v w components
      (fun c _ => Component_value_agree v w c
        (fun p hp hpos => hagree p hp (position_lt_four hpos)))
  · intro components
    let b : T := if components[4]? = some '1' then 0 else 1
    let v : Vector size T := ⟨(List.replicate size 0).set 4 b, by simp⟩
    refine ⟨v, fun out hout hdata => ?_⟩
    have hlen : components.length = size := by
      rw [← out.size_eq, hdata, v.size_eq]
    have hi : 4 < components.length := by omega
    have hv4 : v.get 4 hsize = b := by
      rw [Vector.get_eq_iff]
      simp [v, hsize]
    have hvp : ∀ (p : Nat) (hp : p < size), p < 4 → v.get p hp = 0 := by
      intro p hp hp4
      rw [Vector.get_eq_iff]
      have hne : 4 ≠ p := by omega
      simp [v, hne, hp]
    have hout4 : out.get 4 hi = b := by
      rw [Vector.get_eq_iff, hdata, ← Vector.get_eq_iff v 4 hsize]
      exact hv4
    have hc4 : components[4]? = some (components.get ⟨4, hi⟩) := by
      simp [List.getElem?_eq_getElem hi]
    rcases Component_value_ok_cases v _ _ (swizzle_ok_get v components out hout 4 hi) with
      ⟨p, hp, -, hp4, h⟩ | ⟨hc, h⟩ | ⟨hc, h⟩
    · rw [hvp p hp hp4, hout4] at h
      by_cases hb : components[4]? = some '1'
      · have hchar : components.get ⟨4, hi⟩ = '1' := by
          rw [hc4] at hb; exact Option.some.inj hb
        have hval := swizzle_ok_get v components out hout 4 hi
        rw [hchar, Component.value_one, hout4] at hval
        simp only [b, hb, if_true] at hval
        exact h01 (Except.ok.inj hval).symm
      · simp only [b, hb, if_false] at h
        exact h01 h.symm
    · rw [hout4] at h
      have hb : components[4]? ≠ some '1' := by
        rw [hc4, hc]; decide
      simp only [b, hb, if_false] at h
      exact h01 h.symm
    · rw [hout4] at h
      have hb : components[4]? = some '1' := by
        rw [hc4, hc]
      simp only [b, hb, if_true] at h
      exact h01 h

/-- Witness of C24 (amended): 5-component base vectors of integers. -/
theorem swizzle_beyond_w_witness :
    4 < 5 ∧ (0 : Int) ≠ 1 ∧
    (∀ (components : List Char) (v : Vector 5 Int) (out : Vector components.length Int),
      swizzle components v = Except.ok out →
      ∀ (i : Nat) (hi : i < components.length),
        out.get i hi = 0 ∨ out.get i hi = 1 ∨
          ∃ (p : Nat) (hp : p < 5), p < 4 ∧ out.get i hi = v.get p hp) ∧
    (∀ (components : List Char) (v w : Vector 5 Int),
      (∀ (p : Nat) (hp : p < 5), p < 4 → v.get p hp = w.get p hp) →
      swizzle components v = swizzle components w) ∧
    (∀ components : List Char, ∃ v : Vector 5 Int,
      ∀ out, swizzle components v = Except.ok out → out.data ≠ v.data) :=
  ⟨by decide, by decide, swizzle_beyond_w (by decide) (by decide)⟩

end Math
end Magnum
